import Mathlib

/-!
Verification of the STM32F7 RNG driver (`src/rng.rs`).

The driver is shallowly embedded: the peripheral's visible behaviour is a
trace of status snapshots (one per `sr.read()`), and the word reader,
warm-up loop and byte adapters become recursive functions over such traces.
Machine integers are `Nat` with explicit `% 2 ^ w` where the width matters.
-/

set_option maxHeartbeats 1000000

namespace Stm32Rng

/-- Fault kinds of the driver (`enum ErrorKind` in `src/rng.rs`).
In the source, `ClockError` carries discriminant 2 and `SeedError`
discriminant 4. -/
inductive ErrorKind where
  | ClockError
  | SeedError
deriving DecidableEq, Repr

/-- The numeric discriminant the source assigns to each variant
(`ClockError = 2`, `SeedError = 4`). -/
def ErrorKind.discriminant : ErrorKind → Nat
  | .ClockError => 2
  | .SeedError => 4

/-- Modelled from the dependency `rand_core`: `Error::CUSTOM_START`,
the first error code reserved for custom (non-generic) error sources,
`(1 << 31) + (1 << 30)`. -/
def CUSTOM_START : Nat := 2 ^ 31 + 2 ^ 30

/-- The error code produced by `From<ErrorKind> for rand_core::Error`:
`CUSTOM_START + err as u32`, a `u32` addition. -/
def errorCode (e : ErrorKind) : Nat := (CUSTOM_START + e.discriminant) % 2 ^ 32

/-- One observation of the peripheral: the three status-register flags a
`sr.read()` returns, together with the value the data register `dr` would
yield if read at that instant. A trace `List Status` feeds one snapshot to
each register read, in order. -/
structure Status where
  cecs : Bool
  secs : Bool
  drdy : Bool
  data : Nat
deriving DecidableEq, Repr

/-- One iteration of the `get_rand` polling loop on a status snapshot:
clock error is checked first, then seed error, then data ready; `none`
means no condition held and the loop polls again. The data register holds
a 32-bit word (`rndata().bits()` is a `u32`). -/
def getRandStep (s : Status) : Option (Except ErrorKind Nat) :=
  if s.cecs then some (Except.error ErrorKind.ClockError)
  else if s.secs then some (Except.error ErrorKind.SeedError)
  else if s.drdy then some (Except.ok (s.data % 2 ^ 32))
  else none

/-- `Rng::get_rand` over a status trace: poll snapshots in order until one
decides; return the decision and the unconsumed trace. `none` means the
trace ran out while the loop was still polling (the real loop is
unbounded). -/
def getRand : List Status → Option (Except ErrorKind Nat × List Status)
  | [] => none
  | s :: rest =>
    match getRandStep s with
    | some r => some (r, rest)
    | none => getRand rest

/-- C1: on each poll `get_rand` returns `ClockError` whenever the
clock-error flag is set, regardless of the other flags; otherwise
`SeedError` when the seed-error flag is set; otherwise the 32-bit data
word when data-ready is set; otherwise it polls the next snapshot.
In particular a snapshot with all three flags set yields `ClockError`. -/
theorem get_rand_fault_priority (s : Status) (rest : List Status) :
    (s.cecs = true →
      getRand (s :: rest) = some (Except.error ErrorKind.ClockError, rest)) ∧
    (s.cecs = false → s.secs = true →
      getRand (s :: rest) = some (Except.error ErrorKind.SeedError, rest)) ∧
    (s.cecs = false → s.secs = false → s.drdy = true →
      getRand (s :: rest) = some (Except.ok (s.data % 2 ^ 32), rest)) ∧
    (s.cecs = false → s.secs = false → s.drdy = false →
      getRand (s :: rest) = getRand rest) ∧
    (∀ d : Nat, ∀ rest2 : List Status,
      getRand (⟨true, true, true, d⟩ :: rest2) =
        some (Except.error ErrorKind.ClockError, rest2)) := by
  refine ⟨?_, ?_, ?_, ?_, ?_⟩ <;>
    intros <;> simp_all [getRand, getRandStep]

/-- Concrete instance of the fault-priority theorem: a snapshot with all
three flags set returns `ClockError` at once. -/
theorem get_rand_fault_priority_witness :
    getRand (⟨true, true, true, 7⟩ :: []) =
      some (Except.error ErrorKind.ClockError, []) :=
  (get_rand_fault_priority ⟨true, true, true, 7⟩ []).1 rfl

/-- Outcome of the warm-up loop in `RngExt::init`:
`ready rest` — the loop exited because a poll showed data-ready, and `init`
returns a driver instance (`Rng`); `panicked` — the `assert!` on the
clock-error flag failed and the process aborts. -/
inductive WarmupResult where
  | ready (rest : List Status)
  | panicked
deriving DecidableEq, Repr

/-- The warm-up loop of `RngExt::init`:
`while !self.sr.read().drdy().bit() { assert!(!self.sr.read().cecs().bit()); }`.
Each iteration consumes one snapshot for the data-ready check and, when that
showed clear, a second snapshot for the clock-error assertion. `none` means
the trace ran out while the loop was still spinning. -/
def initWarmup : List Status → Option WarmupResult
  | [] => none
  | [s] => if s.drdy then some (.ready []) else none
  | s :: s2 :: rest =>
    if s.drdy then some (.ready (s2 :: rest))
    else if s2.cecs then some .panicked
    else initWarmup rest

/-- C2 counterexample: a warm-up trace whose very first poll shows
data-ready and clock-error simultaneously makes `init` return an instance —
the loop condition examines only `drdy`, so the concurrent clock error is
never checked and no abort happens, contradicting the claim that an
instance is never produced when data-ready is observed concurrently with
clock-error. -/
theorem init_warmup_concurrent_clock_error_counterexample :
    initWarmup [⟨true, false, true, 0⟩] = some (WarmupResult.ready []) ∧
    (⟨true, false, true, 0⟩ : Status).cecs = true ∧
    (⟨true, false, true, 0⟩ : Status).drdy = true :=
  ⟨rfl, rfl, rfl⟩

/-- The interleaved trace a warm-up that loops `ps.length` times consumes:
for each pair, one snapshot read by the data-ready check and one read by the
clock-error assertion. -/
def pairsFlat (ps : List (Status × Status)) : List Status :=
  ps.flatMap fun p => [p.1, p.2]

/-- Iterations whose data-ready check shows clear and whose clock-error
check shows clear are skipped by the warm-up loop. -/
theorem initWarmup_pairsFlat (ps : List (Status × Status))
    (h : ∀ p ∈ ps, p.1.drdy = false ∧ p.2.cecs = false) (t : List Status) :
    initWarmup (pairsFlat ps ++ t) = initWarmup t := by
  induction ps with
  | nil => rfl
  | cons p ps ih =>
    have h1 := h p (by simp)
    have hrec : ∀ q ∈ ps, q.1.drdy = false ∧ q.2.cecs = false :=
      fun q hq => h q (by simp [hq])
    have : pairsFlat (p :: ps) ++ t = p.1 :: p.2 :: (pairsFlat ps ++ t) := by
      simp [pairsFlat]
    rw [this, initWarmup, h1.1, h1.2]
    simpa using ih hrec

/-- C2 (amended): `init` returns an instance only after a poll shows
data-ready set; the clock-error flag is checked only on the snapshot read
after a poll showed data-ready clear, and a set flag there aborts the
process; the exiting data-ready poll itself is not checked for clock-error,
so an instance can be produced even when data-ready was observed
concurrently with clock-error. -/
theorem init_warmup_amended :
    (∀ trace rest, initWarmup trace = some (WarmupResult.ready rest) →
      ∃ pre s, trace = pre ++ s :: rest ∧ s.drdy = true) ∧
    (∀ ps : List (Status × Status), ∀ s s2 : Status, ∀ rest : List Status,
      (∀ p ∈ ps, p.1.drdy = false ∧ p.2.cecs = false) →
      s.drdy = false → s2.cecs = true →
      initWarmup (pairsFlat ps ++ s :: s2 :: rest) =
        some WarmupResult.panicked) := by
  constructor
  · have key : ∀ n : Nat, ∀ trace rest, trace.length ≤ n →
        initWarmup trace = some (WarmupResult.ready rest) →
        ∃ pre s, trace = pre ++ s :: rest ∧ s.drdy = true := by
      intro n
      induction n with
      | zero =>
        intro trace rest hlen h
        match trace with
        | [] => simp [initWarmup] at h
        | _ :: _ => simp at hlen
      | succ n ih =>
        intro trace rest hlen h
        match trace with
        | [] => simp [initWarmup] at h
        | [s] =>
          by_cases hd : s.drdy
          · rw [initWarmup, if_pos hd] at h
            have h3 := Option.some.inj h
            injection h3 with h2
            exact ⟨[], s, by rw [← h2]; simp, hd⟩
          · rw [initWarmup, if_neg hd] at h
            exact absurd h (by simp)
        | s :: s2 :: rest2 =>
          by_cases hd : s.drdy
          · rw [initWarmup, if_pos hd] at h
            have h3 := Option.some.inj h
            injection h3 with h2
            exact ⟨[], s, by rw [← h2]; simp, hd⟩
          · rw [initWarmup, if_neg hd] at h
            by_cases hc : s2.cecs
            · rw [if_pos hc] at h
              exact absurd (Option.some.inj h) (by simp)
            · rw [if_neg hc] at h
              have hlen2 : rest2.length ≤ n := by
                simp only [List.length_cons] at hlen
                omega
              obtain ⟨pre, t, he, ht⟩ := ih rest2 rest hlen2 h
              exact ⟨s :: s2 :: pre, t, by simp [he], ht⟩
    intro trace rest h
    exact key trace.length trace rest le_rfl h
  · intro ps s s2 rest hps hd hc
    rw [initWarmup_pairsFlat ps hps, initWarmup, hd, if_neg (by simp), hc]
    rfl

/-- Concrete instances of the amended warm-up theorem: a one-snapshot trace
whose poll shows data-ready yields an instance after that poll, and a
drdy-clear poll followed by a cecs-set check aborts. -/
theorem init_warmup_amended_witness :
    (∃ pre s, [(⟨false, false, true, 3⟩ : Status)] =
        pre ++ s :: ([] : List Status) ∧ s.drdy = true) ∧
    initWarmup (pairsFlat [] ++
        ⟨false, false, false, 0⟩ :: ⟨true, false, false, 0⟩ :: []) =
      some WarmupResult.panicked :=
  ⟨init_warmup_amended.1 [⟨false, false, true, 3⟩] [] rfl,
   init_warmup_amended.2 [] ⟨false, false, false, 0⟩ ⟨true, false, false, 0⟩ []
     (by simp) rfl rfl⟩

/-- Models `u32::to_ne_bytes` on the driver's target: ARM Cortex-M is
little-endian, so the native in-memory order is the little-endian byte
split of the word. -/
def toNeBytes (w : Nat) : List Nat :=
  [w % 2 ^ 8, w / 2 ^ 8 % 2 ^ 8, w / 2 ^ 16 % 2 ^ 8, w / 2 ^ 24 % 2 ^ 8]

/-- `BATCH_SIZE` of `try_fill_bytes`: `4 / mem::size_of::<u8>()` bytes of
each random word are available per read. -/
def BATCH_SIZE : Nat := 4 / 1

/-- `buffer[i..i + bs.length].copy_from_slice(&bs)`: overwrite the bytes of
`buffer` starting at index `i` with `bs`. -/
def writeSlice (buffer : List Nat) (i : Nat) (bs : List Nat) : List Nat :=
  buffer.take i ++ bs ++ buffer.drop (i + bs.length)

/-- The interface the `RngCore` adapters consume: the sequence of outcomes
that successive `get_rand` calls return (cf. `getRand`), each element one
call's result — `Except.ok w` a 32-bit word, `Except.error e` a classified
fault. -/
abbrev Outcomes := List (Except ErrorKind Nat)

/-- The loop of `RngCore::try_fill_bytes` at loop counter `i`: while
`i < buffer.len()`, obtain one word from `get_rand` (`?` propagates a
fault), copy `n = min(BATCH_SIZE, buffer.len() - i)` of its native-order
bytes into `buffer[i..i+n]`, and advance `i` by `n`. Returns the final
buffer, the `Result` of the call, and the number of word reads performed;
`none` means the outcome trace ran out with the loop still running. -/
def tryFillBytesAux (src : Outcomes) (buffer : List Nat) (i : Nat) :
    Option (List Nat × Except ErrorKind Unit × Nat) :=
  if i < buffer.length then
    match src with
    | [] => none
    | Except.error e :: _ => some (buffer, Except.error e, 1)
    | Except.ok w :: rest =>
      match tryFillBytesAux rest
          (writeSlice buffer i
            ((toNeBytes w).take (min BATCH_SIZE (buffer.length - i))))
          (i + min BATCH_SIZE (buffer.length - i)) with
      | none => none
      | some (buf2, res, k) => some (buf2, res, k + 1)
  else
    some (buffer, Except.ok (), 0)

/-- `RngCore::try_fill_bytes`: run the fill loop from `i = 0`. -/
def tryFillBytes (src : Outcomes) (buffer : List Nat) :
    Option (List Nat × Except ErrorKind Unit × Nat) :=
  tryFillBytesAux src buffer 0

/-- Result of an infallible `RngCore` method: `ok val rest` — the returned
value and the outcomes not yet consumed; `panicked` — an `unwrap` hit a
fault and the process aborts; `stuck` — the outcome trace ran out. -/
inductive MRes (α : Type) where
  | ok (val : α) (rest : Outcomes)
  | panicked
  | stuck
deriving Repr

/-- `RngCore::next_u32`: `self.get_rand().unwrap()` — one word read,
aborting the process on a fault. -/
def nextU32M : Outcomes → MRes Nat
  | [] => .stuck
  | Except.ok w :: rest => .ok w rest
  | Except.error _ :: _ => .panicked

/-- `RngCore::next_u64`: two `next_u32` calls; the first word is shifted
into the high 32 bits and or-ed with the second, in `u64` arithmetic. -/
def nextU64M (src : Outcomes) : MRes Nat :=
  match nextU32M src with
  | .ok w1 r1 =>
    match nextU32M r1 with
    | .ok w2 r2 => .ok ((w1 <<< 32 ||| w2) % 2 ^ 64) r2
    | .panicked => .panicked
    | .stuck => .stuck
  | .panicked => .panicked
  | .stuck => .stuck

/-- `RngCore::fill_bytes`: `self.try_fill_bytes(dest).unwrap()` — the byte
fill, aborting the process on a fault. -/
def fillBytesM (src : Outcomes) (buffer : List Nat) : MRes (List Nat) :=
  match tryFillBytes src buffer with
  | none => .stuck
  | some (_, Except.error _, _) => .panicked
  | some (buf2, Except.ok _, k) => .ok buf2 (src.drop k)

theorem length_writeSlice (buffer bs : List Nat) (i : Nat)
    (h : i + bs.length ≤ buffer.length) :
    (writeSlice buffer i bs).length = buffer.length := by
  simp only [writeSlice, List.length_append, List.length_take, List.length_drop]
  omega

theorem writeSlice_take (buffer bs : List Nat) (i : Nat)
    (h : i + bs.length ≤ buffer.length) :
    (writeSlice buffer i bs).take (i + bs.length) = buffer.take i ++ bs := by
  have hA : (buffer.take i ++ bs).length = i + bs.length := by
    simp only [List.length_append, List.length_take]
    omega
  rw [writeSlice]
  exact List.take_left' hA

theorem writeSlice_drop (buffer bs : List Nat) (i k : Nat)
    (h : i + bs.length ≤ buffer.length) :
    (writeSlice buffer i bs).drop (i + bs.length + k) =
      buffer.drop (i + bs.length + k) := by
  have hA : (buffer.take i ++ bs).length = i + bs.length := by
    simp only [List.length_append, List.length_take]
    omega
  rw [writeSlice]
  rw [List.drop_append_eq_append_drop]
  rw [hA]
  have h1 : i + bs.length + k - (i + bs.length) = k := by omega
  rw [h1]
  have : (buffer.take i ++ bs).drop (i + bs.length + k) = [] := by
    apply List.drop_eq_nil_of_le
    omega
  rw [this, List.nil_append, List.drop_drop]

/-- The fill loop exits as soon as the counter reaches the buffer length,
without touching the source. -/
theorem tryFillBytesAux_done (src : Outcomes) (buffer : List Nat) (i : Nat)
    (h : ¬ i < buffer.length) :
    tryFillBytesAux src buffer i = some (buffer, Except.ok (), 0) := by
  rw [tryFillBytesAux.eq_def, if_neg h]

/-- A faulting word read makes the fill loop return the fault at once,
with the buffer as it stands and a single read counted. -/
theorem tryFillBytesAux_err (e : ErrorKind) (rest : Outcomes)
    (buffer : List Nat) (i : Nat) (h : i < buffer.length) :
    tryFillBytesAux (Except.error e :: rest) buffer i =
      some (buffer, Except.error e, 1) := by
  rw [tryFillBytesAux.eq_def, if_pos h]

/-- A successful word read writes `min BATCH_SIZE (buffer.length - i)` of
the word's native-order bytes at index `i`, advances the counter by that
amount, and adds one to the read count of the rest of the run. -/
theorem tryFillBytesAux_ok_step (w : Nat) (rest : Outcomes)
    (buffer : List Nat) (i : Nat) (h : i < buffer.length) :
    tryFillBytesAux (Except.ok w :: rest) buffer i =
      Option.map (fun r => (r.1, r.2.1, r.2.2 + 1))
        (tryFillBytesAux rest
          (writeSlice buffer i
            ((toNeBytes w).take (min BATCH_SIZE (buffer.length - i))))
          (i + min BATCH_SIZE (buffer.length - i))) := by
  rw [tryFillBytesAux.eq_def, if_pos h]
  show (match tryFillBytesAux rest
        (writeSlice buffer i
          ((toNeBytes w).take (min BATCH_SIZE (buffer.length - i))))
        (i + min BATCH_SIZE (buffer.length - i)) with
      | none => none
      | some (buf2, res, k) => some (buf2, res, k + 1)) =
    Option.map (fun r => (r.1, r.2.1, r.2.2 + 1))
      (tryFillBytesAux rest
        (writeSlice buffer i
          ((toNeBytes w).take (min BATCH_SIZE (buffer.length - i))))
        (i + min BATCH_SIZE (buffer.length - i)))
  cases tryFillBytesAux rest
      (writeSlice buffer i
        ((toNeBytes w).take (min BATCH_SIZE (buffer.length - i))))
      (i + min BATCH_SIZE (buffer.length - i)) with
  | none => rfl
  | some r =>
    rcases r with ⟨a, b, c⟩
    rfl

/-- On a fault-free source holding enough words, the fill loop writes the
words' native-order bytes from index `i` to the end of the buffer,
succeeds, and performs one word read per four remaining bytes, rounded
up. -/
theorem tryFillBytesAux_all_ok (ws : List Nat) :
    ∀ buffer : List Nat, ∀ i : Nat, i ≤ buffer.length →
    buffer.length - i ≤ 4 * ws.length →
    tryFillBytesAux (ws.map Except.ok) buffer i =
      some (buffer.take i ++ (ws.flatMap toNeBytes).take (buffer.length - i),
        Except.ok (), (buffer.length - i + 3) / 4) := by
  induction ws with
  | nil =>
    intro buffer i hi hw
    simp only [List.length_nil, Nat.mul_zero, Nat.le_zero] at hw
    have hge : ¬ i < buffer.length := by omega
    rw [List.map_nil, tryFillBytesAux_done _ _ _ hge, hw]
    have htake : buffer.take i = buffer := List.take_of_length_le (by omega)
    simp [htake]
  | cons w ws ih =>
    intro buffer i hi hw
    by_cases hlt : i < buffer.length
    · have hB : BATCH_SIZE = 4 := rfl
      have hlen4 : (toNeBytes w).length = 4 := rfl
      rcases Nat.le_total 4 (buffer.length - i) with hN | hN
      · -- at least four bytes remain: the whole word is copied
        have hmin : min BATCH_SIZE (buffer.length - i) = 4 := by
          rw [hB]; omega
        have htk : (toNeBytes w).take 4 = toNeBytes w :=
          List.take_of_length_le (by rw [hlen4])
        have hbounds : i + (toNeBytes w).length ≤ buffer.length := by
          rw [hlen4]; omega
        have hlen2 : (writeSlice buffer i (toNeBytes w)).length =
            buffer.length := length_writeSlice _ _ _ hbounds
        rw [List.map_cons, tryFillBytesAux_ok_step w _ _ _ hlt, hmin, htk,
          ih (writeSlice buffer i (toNeBytes w)) (i + 4)
            (by rw [hlen2]; omega) (by rw [hlen2]; simp at hw ⊢; omega)]
        have hrw : (writeSlice buffer i (toNeBytes w)).take (i + 4) =
            buffer.take i ++ toNeBytes w := by
          have := writeSlice_take buffer (toNeBytes w) i hbounds
          rwa [hlen4] at this
        simp only [Option.map_some, hlen2, hrw]
        refine congrArg some ?_
        refine Prod.ext ?_ (Prod.ext rfl ?_)
        · show buffer.take i ++ toNeBytes w ++
              (ws.flatMap toNeBytes).take (buffer.length - (i + 4)) =
            buffer.take i ++ ((w :: ws).flatMap toNeBytes).take
              (buffer.length - i)
          rw [List.flatMap_cons, List.take_append_eq_append_take,
            List.append_assoc]
          have h1 : (toNeBytes w).take (buffer.length - i) = toNeBytes w :=
            List.take_of_length_le (by rw [hlen4]; omega)
          have h2 : buffer.length - i - (toNeBytes w).length =
              buffer.length - (i + 4) := by rw [hlen4]; omega
          rw [h1, h2]
        · show (buffer.length - (i + 4) + 3) / 4 + 1 =
            (buffer.length - i + 3) / 4
          omega
      · -- fewer than four bytes remain: only the leading bytes are copied
        have hpos : 0 < buffer.length - i := by omega
        have hmin : min BATCH_SIZE (buffer.length - i) = buffer.length - i := by
          rw [hB]; omega
        have htklen : ((toNeBytes w).take (buffer.length - i)).length =
            buffer.length - i := by
          rw [List.length_take, hlen4]; omega
        have hbounds : i + ((toNeBytes w).take (buffer.length - i)).length ≤
            buffer.length := by rw [htklen]; omega
        have hlen2 : (writeSlice buffer i
            ((toNeBytes w).take (buffer.length - i))).length =
            buffer.length := length_writeSlice _ _ _ hbounds
        rw [List.map_cons, tryFillBytesAux_ok_step w _ _ _ hlt, hmin,
          ih _ (i + (buffer.length - i)) (by rw [hlen2]; omega)
            (by rw [hlen2]; omega)]
        have hfull : i + (buffer.length - i) = buffer.length := by omega
        have hrw : (writeSlice buffer i
            ((toNeBytes w).take (buffer.length - i))).take
              (i + (buffer.length - i)) =
            buffer.take i ++ (toNeBytes w).take (buffer.length - i) := by
          have := writeSlice_take buffer
            ((toNeBytes w).take (buffer.length - i)) i hbounds
          rwa [htklen] at this
        simp only [Option.map_some, hlen2]
        have hz : buffer.length - (i + (buffer.length - i)) = 0 := by omega
        rw [hz]
        have htake_all : (writeSlice buffer i
            ((toNeBytes w).take (buffer.length - i))).take
              (i + (buffer.length - i)) =
            writeSlice buffer i ((toNeBytes w).take (buffer.length - i)) := by
          apply List.take_of_length_le
          rw [hlen2]; omega
        refine congrArg some ?_
        refine Prod.ext ?_ (Prod.ext rfl ?_)
        · show (writeSlice buffer i
              ((toNeBytes w).take (buffer.length - i))).take
                (i + (buffer.length - i)) ++ (ws.flatMap toNeBytes).take 0 =
            buffer.take i ++ ((w :: ws).flatMap toNeBytes).take
              (buffer.length - i)
          rw [hrw, List.flatMap_cons, List.take_append_eq_append_take]
          have h2 : buffer.length - i - (toNeBytes w).length = 0 := by
            rw [hlen4]; omega
          rw [h2]
          simp
        · show (0 + 3) / 4 + 1 = (buffer.length - i + 3) / 4
          omega
    · have hz : buffer.length - i = 0 := by omega
      rw [tryFillBytesAux_done _ _ _ hlt, hz]
      have htake : buffer.take i = buffer := List.take_of_length_le (by omega)
      simp [htake]

/-- The first `i` buffer bytes are untouched by a slice write at `i`. -/
theorem writeSlice_take_self (buffer bs : List Nat) (i : Nat)
    (h : i ≤ buffer.length) :
    (writeSlice buffer i bs).take i = buffer.take i := by
  rw [writeSlice, List.append_assoc]
  exact List.take_left' (by rw [List.length_take]; omega)

/-- Each word contributes exactly its four native-order bytes. -/
theorem length_flatMap_toNeBytes (ws : List Nat) :
    (ws.flatMap toNeBytes).length = 4 * ws.length := by
  induction ws with
  | nil => rfl
  | cons w ws ih =>
    rw [List.flatMap_cons, List.length_append, ih]
    simp [toNeBytes]
    omega

/-- A run whose `ws.length + 1`-st word read is the first to fault: the
loop copies the successful words' native bytes, then returns the fault
after exactly `ws.length + 1` reads, leaving the remainder of the buffer
untouched; the outcomes after the fault are never consulted. -/
theorem tryFillBytesAux_first_err (ws : List Nat) :
    ∀ e : ErrorKind, ∀ rest : Outcomes, ∀ buffer : List Nat, ∀ i : Nat,
    i ≤ buffer.length → 4 * ws.length < buffer.length - i →
    tryFillBytesAux (ws.map Except.ok ++ Except.error e :: rest) buffer i =
      some (buffer.take i ++ ws.flatMap toNeBytes ++
          buffer.drop (i + 4 * ws.length),
        Except.error e, ws.length + 1) := by
  induction ws with
  | nil =>
    intro e rest buffer i hi hw
    have hlt : i < buffer.length := by simp at hw; omega
    rw [List.map_nil, List.nil_append, tryFillBytesAux_err _ _ _ _ hlt]
    simp
  | cons w ws ih =>
    intro e rest buffer i hi hw
    have hcons : 4 * (w :: ws).length = 4 * ws.length + 4 := by
      simp; omega
    have hlt : i < buffer.length := by omega
    have hlen4 : (toNeBytes w).length = 4 := rfl
    have hN4 : 4 ≤ buffer.length - i := by omega
    have hmin : min BATCH_SIZE (buffer.length - i) = 4 := by
      rw [show BATCH_SIZE = 4 from rfl]
      omega
    have htk : (toNeBytes w).take 4 = toNeBytes w :=
      List.take_of_length_le (by rw [hlen4])
    have hbounds : i + (toNeBytes w).length ≤ buffer.length := by
      rw [hlen4]; omega
    have hlen2 : (writeSlice buffer i (toNeBytes w)).length = buffer.length :=
      length_writeSlice _ _ _ hbounds
    rw [List.map_cons, List.cons_append, tryFillBytesAux_ok_step w _ _ _ hlt,
      hmin, htk,
      ih e rest (writeSlice buffer i (toNeBytes w)) (i + 4)
        (by rw [hlen2]; omega) (by rw [hlen2]; omega)]
    have hrw : (writeSlice buffer i (toNeBytes w)).take (i + 4) =
        buffer.take i ++ toNeBytes w := by
      have := writeSlice_take buffer (toNeBytes w) i hbounds
      rwa [hlen4] at this
    have hdr : (writeSlice buffer i (toNeBytes w)).drop (i + 4 + 4 * ws.length) =
        buffer.drop (i + 4 + 4 * ws.length) := by
      have := writeSlice_drop buffer (toNeBytes w) i (4 * ws.length) hbounds
      rwa [hlen4] at this
    simp only [Option.map_some, hrw, hdr]
    refine congrArg some ?_
    refine Prod.ext ?_ (Prod.ext rfl ?_)
    · show buffer.take i ++ toNeBytes w ++ ws.flatMap toNeBytes ++
          buffer.drop (i + 4 + 4 * ws.length) =
        buffer.take i ++ (w :: ws).flatMap toNeBytes ++
          buffer.drop (i + 4 * (w :: ws).length)
      rw [List.flatMap_cons, hcons,
        show i + (4 * ws.length + 4) = i + 4 + 4 * ws.length from by omega,
        List.append_assoc (buffer.take i) (toNeBytes w) (ws.flatMap toNeBytes)]
    · show ws.length + 1 + 1 = (w :: ws).length + 1
      simp

/-- The fill loop never changes the buffer length. -/
theorem tryFillBytesAux_length (src : Outcomes) :
    ∀ buffer : List Nat, ∀ i : Nat,
    ∀ out : List Nat × Except ErrorKind Unit × Nat,
    tryFillBytesAux src buffer i = some out → out.1.length = buffer.length := by
  induction src with
  | nil =>
    intro buffer i out h
    by_cases hlt : i < buffer.length
    · rw [tryFillBytesAux.eq_def, if_pos hlt] at h
      exact absurd h (by simp)
    · rw [tryFillBytesAux_done _ _ _ hlt] at h
      injection h with h2
      rw [← h2]
  | cons o rest ih =>
    intro buffer i out h
    by_cases hlt : i < buffer.length
    · cases o with
      | error e =>
        rw [tryFillBytesAux_err _ _ _ _ hlt] at h
        injection h with h2
        rw [← h2]
      | ok w =>
        rw [tryFillBytesAux_ok_step _ _ _ _ hlt] at h
        cases ho : tryFillBytesAux rest
            (writeSlice buffer i
              ((toNeBytes w).take (min BATCH_SIZE (buffer.length - i))))
            (i + min BATCH_SIZE (buffer.length - i)) with
        | none => rw [ho] at h; exact absurd h (by simp)
        | some out2 =>
          rw [ho] at h
          injection h with h2
          have hl := ih _ _ _ ho
          have hws : (writeSlice buffer i
              ((toNeBytes w).take (min BATCH_SIZE (buffer.length - i)))).length =
              buffer.length := by
            apply length_writeSlice
            have ht : ((toNeBytes w).take
                (min BATCH_SIZE (buffer.length - i))).length ≤
                min BATCH_SIZE (buffer.length - i) := by
              rw [List.length_take]
              omega
            have hm : min BATCH_SIZE (buffer.length - i) ≤ buffer.length - i :=
              min_le_right _ _
            omega
          rw [← h2]
          rw [hws] at hl
          exact hl
    · rw [tryFillBytesAux_done _ _ _ hlt] at h
      injection h with h2
      rw [← h2]

/-- The fill loop never writes below its starting index. -/
theorem tryFillBytesAux_prefix (src : Outcomes) :
    ∀ buffer : List Nat, ∀ i : Nat,
    ∀ out : List Nat × Except ErrorKind Unit × Nat,
    i ≤ buffer.length →
    tryFillBytesAux src buffer i = some out → out.1.take i = buffer.take i := by
  induction src with
  | nil =>
    intro buffer i out hi h
    by_cases hlt : i < buffer.length
    · rw [tryFillBytesAux.eq_def, if_pos hlt] at h
      exact absurd h (by simp)
    · rw [tryFillBytesAux_done _ _ _ hlt] at h
      injection h with h2
      rw [← h2]
  | cons o rest ih =>
    intro buffer i out hi h
    by_cases hlt : i < buffer.length
    · cases o with
      | error e =>
        rw [tryFillBytesAux_err _ _ _ _ hlt] at h
        injection h with h2
        rw [← h2]
      | ok w =>
        rw [tryFillBytesAux_ok_step _ _ _ _ hlt] at h
        cases ho : tryFillBytesAux rest
            (writeSlice buffer i
              ((toNeBytes w).take (min BATCH_SIZE (buffer.length - i))))
            (i + min BATCH_SIZE (buffer.length - i)) with
        | none => rw [ho] at h; exact absurd h (by simp)
        | some out2 =>
          rw [ho] at h
          injection h with h2
          have htklen : ((toNeBytes w).take
              (min BATCH_SIZE (buffer.length - i))).length ≤
              min BATCH_SIZE (buffer.length - i) := by
            rw [List.length_take]
            omega
          have hm : min BATCH_SIZE (buffer.length - i) ≤ buffer.length - i :=
            min_le_right _ _
          have hws : (writeSlice buffer i
              ((toNeBytes w).take (min BATCH_SIZE (buffer.length - i)))).length =
              buffer.length := by
            apply length_writeSlice
            omega
          have hpre := ih _ _ _ (by rw [hws]; omega) ho
          rw [← h2]
          show out2.1.take i = buffer.take i
          have e1 : out2.1.take i =
              (out2.1.take (i + min BATCH_SIZE (buffer.length - i))).take i := by
            rw [List.take_take]
            congr 1
            omega
          rw [e1, hpre, List.take_take,
            show min i (i + min BATCH_SIZE (buffer.length - i)) = i from by omega]
          exact writeSlice_take_self _ _ _ (by omega)
    · rw [tryFillBytesAux_done _ _ _ hlt] at h
      injection h with h2
      rw [← h2]

/-- Joining a high word and a 32-bit low word by shift-or equals the
corresponding sum: the or has no carries because the low word fits below
the shift. -/
theorem shiftLeft_lor_eq_add (a b : Nat) (hb : b < 2 ^ 32) :
    a <<< 32 ||| b = a * 2 ^ 32 + b := by
  rw [Nat.mul_comm]
  apply Nat.eq_of_testBit_eq
  intro j
  rw [Nat.testBit_or, Nat.testBit_shiftLeft, Nat.testBit_mul_pow_two_add a hb j]
  by_cases hj : j < 32
  · have hd : decide (j ≥ 32) = false := by simp; omega
    rw [if_pos hj, hd, Bool.false_and, Bool.false_or]
  · have hd : decide (j ≥ 32) = true := by simp; omega
    have hb0 : b.testBit j = false :=
      Nat.testBit_lt_two_pow
        (lt_of_lt_of_le hb (Nat.pow_le_pow_right (by norm_num) (by omega)))
    rw [if_neg hj, hd, Bool.true_and, hb0, Bool.or_false]

/-- C3: on a fault-free peripheral, `try_fill_bytes` performs exactly
`ceil(N/4)` word reads for a buffer of length `N`, fills all `N` bytes with
the words' native-order bytes, and returns success; for an empty buffer it
performs zero reads and succeeds. -/
theorem try_fill_bytes_fault_free :
    (∀ ws : List Nat, ∀ buffer : List Nat, buffer.length ≤ 4 * ws.length →
      tryFillBytes (ws.map Except.ok) buffer =
        some ((ws.flatMap toNeBytes).take buffer.length, Except.ok (),
          (buffer.length + 3) / 4)) ∧
    (∀ src : Outcomes, tryFillBytes src [] = some ([], Except.ok (), 0)) := by
  constructor
  · intro ws buffer h
    rw [tryFillBytes,
      tryFillBytesAux_all_ok ws buffer 0 (Nat.zero_le _) (by omega)]
    simp
  · intro src
    rw [tryFillBytes]
    exact tryFillBytesAux_done src [] 0 (by simp)

/-- Concrete instance: a 5-byte buffer fed the fault-free words `[1, 2]`
is filled from their native bytes in 2 = ceil(5/4) reads. -/
theorem try_fill_bytes_fault_free_witness :
    tryFillBytes [Except.ok 1, Except.ok 2] [0, 0, 0, 0, 0] =
      some ([1, 0, 0, 0, 2], Except.ok (), 2) := by
  have h := try_fill_bytes_fault_free.1 [1, 2] [0, 0, 0, 0, 0] (by decide)
  exact h.trans rfl

/-- C4: when a word read faults, `try_fill_bytes` returns that fault to
the caller, having performed no read after the faulting one (the read
count is the fault's position, and the outcomes after it do not occur in
the result), with no retry and no zero-fill of the remainder. -/
theorem try_fill_bytes_fault_propagation (ws : List Nat) (e : ErrorKind)
    (rest : Outcomes) (buffer : List Nat) (h : 4 * ws.length < buffer.length) :
    tryFillBytes (ws.map Except.ok ++ Except.error e :: rest) buffer =
      some (ws.flatMap toNeBytes ++ buffer.drop (4 * ws.length),
        Except.error e, ws.length + 1) := by
  rw [tryFillBytes,
    tryFillBytesAux_first_err ws e rest buffer 0 (Nat.zero_le _) (by omega)]
  simp

/-- Concrete instance: a fault at the second read of a 6-byte fill is
returned after exactly 2 reads, the tail outcome never consulted. -/
theorem try_fill_bytes_fault_propagation_witness :
    tryFillBytes ([5].map Except.ok ++
        Except.error ErrorKind.SeedError :: [Except.ok 9]) [7, 7, 7, 7, 7, 7] =
      some ([5, 0, 0, 0, 7, 7], Except.error ErrorKind.SeedError, 2) := by
  have h := try_fill_bytes_fault_propagation [5] ErrorKind.SeedError
    [Except.ok 9] [7, 7, 7, 7, 7, 7] (by decide)
  rw [h]
  rfl

/-- C10: when the `k`-th word read is the first to fault, the buffer bytes
at index `min (4*(k-1)) N` and beyond keep their pre-call values, and the
bytes below hold exactly the native-order bytes of the `k-1` words read
successfully. -/
theorem try_fill_bytes_error_frame (ws : List Nat) (e : ErrorKind)
    (rest : Outcomes) (buffer : List Nat) (h : 4 * ws.length < buffer.length) :
    ∃ buf2 : List Nat,
      tryFillBytes (ws.map Except.ok ++ Except.error e :: rest) buffer =
        some (buf2, Except.error e, ws.length + 1) ∧
      buf2.drop (min (4 * ws.length) buffer.length) =
        buffer.drop (min (4 * ws.length) buffer.length) ∧
      buf2.take (min (4 * ws.length) buffer.length) = ws.flatMap toNeBytes := by
  have hmin : min (4 * ws.length) buffer.length = 4 * ws.length := by omega
  refine ⟨ws.flatMap toNeBytes ++ buffer.drop (4 * ws.length), ?_, ?_, ?_⟩
  · rw [tryFillBytes,
      tryFillBytesAux_first_err ws e rest buffer 0 (Nat.zero_le _) (by omega)]
    simp
  · rw [hmin]
    exact List.drop_left' (length_flatMap_toNeBytes ws)
  · rw [hmin]
    exact List.take_left' (length_flatMap_toNeBytes ws)

/-- Concrete instance: a fault at the very first read of a 2-byte fill
leaves the whole buffer untouched. -/
theorem try_fill_bytes_error_frame_witness :
    ∃ buf2 : List Nat,
      tryFillBytes (([] : List Nat).map Except.ok ++
          Except.error ErrorKind.ClockError :: ([] : Outcomes)) [9, 9] =
        some (buf2, Except.error ErrorKind.ClockError, 1) ∧
      buf2.drop (min 0 2) = ([9, 9] : List Nat).drop (min 0 2) ∧
      buf2.take (min 0 2) = ([] : List Nat).flatMap toNeBytes :=
  try_fill_bytes_error_frame [] ErrorKind.ClockError [] [9, 9] (by decide)

/-- C6: each successful word contributes `min 4 remaining` of its bytes in
the word's native (`to_ne_bytes`) order; in particular a 6-byte buffer fed
`[0x11223344, 0x55667788]` holds the 4 native-order bytes of the first
word followed by the first 2 native-order bytes of the second. -/
theorem try_fill_bytes_word_contribution :
    (tryFillBytes [Except.ok 0x11223344, Except.ok 0x55667788]
        [0, 0, 0, 0, 0, 0] =
      some ([0x44, 0x33, 0x22, 0x11, 0x88, 0x77], Except.ok (), 2)) ∧
    (∀ w : Nat, ∀ src : Outcomes, ∀ buffer : List Nat,
      ∀ out : List Nat × Except ErrorKind Unit × Nat,
      0 < buffer.length →
      tryFillBytes (Except.ok w :: src) buffer = some out →
      out.1.take (min 4 buffer.length) =
        (toNeBytes w).take (min 4 buffer.length)) := by
  constructor
  · rfl
  · intro w src buffer out hpos h
    rw [tryFillBytes, tryFillBytesAux_ok_step w src buffer 0 hpos] at h
    cases ho : tryFillBytesAux src
        (writeSlice buffer 0
          ((toNeBytes w).take (min BATCH_SIZE (buffer.length - 0))))
        (0 + min BATCH_SIZE (buffer.length - 0)) with
    | none => rw [ho] at h; exact absurd h (by simp)
    | some out2 =>
      rw [ho] at h
      injection h with h2
      have hout1 : out.1 = out2.1 := by rw [← h2]
      have hbs : ((toNeBytes w).take
          (min BATCH_SIZE (buffer.length - 0))).length =
          min BATCH_SIZE (buffer.length - 0) := by
        rw [List.length_take, show (toNeBytes w).length = 4 from rfl,
          show BATCH_SIZE = 4 from rfl]
        omega
      have hm : min BATCH_SIZE (buffer.length - 0) ≤ buffer.length - 0 :=
        min_le_right _ _
      have hws : (writeSlice buffer 0
          ((toNeBytes w).take (min BATCH_SIZE (buffer.length - 0)))).length =
          buffer.length := length_writeSlice _ _ _ (by rw [hbs]; omega)
      have hpre := tryFillBytesAux_prefix src _ _ _ (by rw [hws]; omega) ho
      have hn4 : 0 + min BATCH_SIZE (buffer.length - 0) =
          min 4 buffer.length := by
        rw [show BATCH_SIZE = 4 from rfl]
        omega
      have hws_take := writeSlice_take buffer
        ((toNeBytes w).take (min BATCH_SIZE (buffer.length - 0))) 0
        (by rw [hbs]; omega)
      rw [hbs] at hws_take
      calc out.1.take (min 4 buffer.length)
          = out2.1.take (0 + min BATCH_SIZE (buffer.length - 0)) := by
            rw [hout1, hn4]
        _ = (writeSlice buffer 0
              ((toNeBytes w).take
                (min BATCH_SIZE (buffer.length - 0)))).take
              (0 + min BATCH_SIZE (buffer.length - 0)) := hpre
        _ = buffer.take 0 ++
              (toNeBytes w).take (min BATCH_SIZE (buffer.length - 0)) :=
            hws_take
        _ = (toNeBytes w).take (min 4 buffer.length) := by
            rw [List.take_zero, List.nil_append]
            congr 1

/-- Concrete instance: a single word filling a 2-byte buffer contributes
its first two native-order bytes. -/
theorem try_fill_bytes_word_contribution_witness :
    ([0x44, 0x33] : List Nat).take (min 4 2) =
      (toNeBytes 0x11223344).take (min 4 2) :=
  try_fill_bytes_word_contribution.2 0x11223344 [] [9, 9]
    ([0x44, 0x33], Except.ok (), 1) (by decide) rfl

/-- C5: `next_u64` performs exactly two word reads; the first word forms
the high 32 bits and the second the low 32 bits of the result. -/
theorem next_u64_high_low (w1 w2 : Nat) (rest : Outcomes)
    (h1 : w1 < 2 ^ 32) (h2 : w2 < 2 ^ 32) :
    nextU64M (Except.ok w1 :: Except.ok w2 :: rest) =
      MRes.ok (w1 * 2 ^ 32 + w2) rest ∧
    (w1 * 2 ^ 32 + w2) / 2 ^ 32 = w1 ∧
    (w1 * 2 ^ 32 + w2) % 2 ^ 32 = w2 := by
  refine ⟨?_, by omega, by omega⟩
  have hbound : w1 * 2 ^ 32 + w2 < 2 ^ 64 := by
    have h3 : w1 * 2 ^ 32 + w2 < (w1 + 1) * 2 ^ 32 := by
      have : (w1 + 1) * 2 ^ 32 = w1 * 2 ^ 32 + 2 ^ 32 := by ring
      omega
    have h4 : (w1 + 1) * 2 ^ 32 ≤ 2 ^ 32 * 2 ^ 32 :=
      Nat.mul_le_mul_right _ (by omega)
    have h5 : (2 : Nat) ^ 32 * 2 ^ 32 = 2 ^ 64 := by norm_num
    omega
  simp only [nextU64M, nextU32M]
  rw [shiftLeft_lor_eq_add w1 w2 h2, Nat.mod_eq_of_lt hbound]

/-- Concrete instance: words 1 then 2 produce the 64-bit value with high
word 1 and low word 2, leaving the rest of the trace unread. -/
theorem next_u64_high_low_witness :
    nextU64M [Except.ok 1, Except.ok 2] = MRes.ok (1 * 2 ^ 32 + 2) [] ∧
    (1 * 2 ^ 32 + 2) / 2 ^ 32 = 1 ∧ (1 * 2 ^ 32 + 2) % 2 ^ 32 = 2 :=
  next_u64_high_low 1 2 [] (by norm_num) (by norm_num)

/-- C7: the fault kinds form the closed two-element set with distinct
discriminants 2 and 4, and their error codes `CUSTOM_START + discriminant`
are distinct, non-zero (so `NonZeroU32::new(..).unwrap()` succeeds) and
at or above `CUSTOM_START`, never colliding with generic error codes. -/
theorem error_kind_codes :
    ErrorKind.ClockError.discriminant = 2 ∧
    ErrorKind.SeedError.discriminant = 4 ∧
    ErrorKind.ClockError.discriminant ≠ ErrorKind.SeedError.discriminant ∧
    errorCode ErrorKind.ClockError ≠ errorCode ErrorKind.SeedError ∧
    (∀ e : ErrorKind, CUSTOM_START ≤ errorCode e ∧ errorCode e ≠ 0) := by
  refine ⟨rfl, rfl, by decide, by decide, ?_⟩
  intro e
  cases e <;> exact ⟨by decide, by decide⟩

/-- C8: the infallible generic-source methods abort the process on any
underlying fault and return normally exactly on fault-free reads:
`next_u32` panics on a fault and returns the word otherwise; `fill_bytes`
panics when some read of the underlying byte fill faults and returns the
filled buffer when all reads succeed. -/
theorem infallible_adapters_abort_on_fault :
    (∀ e : ErrorKind, ∀ rest : Outcomes,
      nextU32M (Except.error e :: rest) = MRes.panicked) ∧
    (∀ w : Nat, ∀ rest : Outcomes,
      nextU32M (Except.ok w :: rest) = MRes.ok w rest) ∧
    (∀ ws : List Nat, ∀ e : ErrorKind, ∀ rest : Outcomes,
      ∀ buffer : List Nat, 4 * ws.length < buffer.length →
      fillBytesM (ws.map Except.ok ++ Except.error e :: rest) buffer =
        MRes.panicked) ∧
    (∀ ws : List Nat, ∀ buffer : List Nat, buffer.length ≤ 4 * ws.length →
      fillBytesM (ws.map Except.ok) buffer =
        MRes.ok ((ws.flatMap toNeBytes).take buffer.length)
          ((ws.map Except.ok).drop ((buffer.length + 3) / 4))) := by
  refine ⟨fun e rest => rfl, fun w rest => rfl, ?_, ?_⟩
  · intro ws e rest buffer h
    rw [fillBytesM, tryFillBytes,
      tryFillBytesAux_first_err ws e rest buffer 0 (Nat.zero_le _) (by omega)]
  · intro ws buffer h
    rw [fillBytesM, tryFillBytes,
      tryFillBytesAux_all_ok ws buffer 0 (Nat.zero_le _) (by omega)]
    rfl

/-- Concrete instances: a first-read fault makes `fill_bytes` abort, and a
fault-free fill returns the filled buffer. -/
theorem infallible_adapters_abort_on_fault_witness :
    fillBytesM (([] : List Nat).map Except.ok ++
        Except.error ErrorKind.ClockError :: ([] : Outcomes)) [1] =
      MRes.panicked ∧
    fillBytesM [Except.ok 3] [0, 0, 0, 0] = MRes.ok [3, 0, 0, 0] [] :=
  ⟨infallible_adapters_abort_on_fault.2.2.1 [] ErrorKind.ClockError [] [1]
     (by decide),
   infallible_adapters_abort_on_fault.2.2.2 [3] [0, 0, 0, 0] (by decide)⟩

/-- The peripheral register file of the `RNG` handle: the generator-enable
control bit of `cr`, the three status flags of `sr`, and the data register
`dr`. -/
structure RNG where
  cr_rngen : Bool
  sr_cecs : Bool
  sr_secs : Bool
  sr_drdy : Bool
  dr : Nat
deriving DecidableEq, Repr

/-- The driver instance `pub struct Rng { rb: RNG }`: sole owner of the
register handle. -/
structure Rng where
  rb : RNG
deriving DecidableEq, Repr

/-- `Rng::release`: `pub fn release(self) -> RNG { self.rb }` — consume
the instance and hand the register handle back, performing no writes. -/
def Rng.release (r : Rng) : RNG := r.rb

/-- C9: `release` returns the very register handle the instance was
constructed around and changes no register — in particular the
generator-enable bit, the status flags and the data register are exactly
as before the call. -/
theorem release_returns_handle_unchanged (r : Rng) :
    r.release = r.rb ∧
    r.release.cr_rngen = r.rb.cr_rngen ∧
    r.release.sr_cecs = r.rb.sr_cecs ∧
    r.release.sr_secs = r.rb.sr_secs ∧
    r.release.sr_drdy = r.rb.sr_drdy ∧
    r.release.dr = r.rb.dr :=
  ⟨rfl, rfl, rfl, rfl, rfl, rfl⟩

end Stm32Rng
